import Mathlib

/-!
Verification development for the obsidian-meals meal-plan document engine.

The week-arithmetic functions are embedded from `src/utils/utils.ts`.
A date (a moment.js `Moment` at day granularity) is represented by the
number of days since 1970-01-01 (an `Int`); `moment.day()` is the fixed
numeric day-of-week convention 0 = Sunday … 6 = Saturday, and
`format('MMMM Do')` is the English month name followed by the day of the
month with its ordinal suffix.
-/

/-- Gregorian civil date from a count of days since 1970-01-01
(the standard era-based algorithm; returns (year, month, day)). -/
def civilFromDays (z0 : Int) : Int × Nat × Nat :=
  let z : Int := z0 + 719468
  let era : Int := z / 146097
  let doe : Nat := (z % 146097).toNat
  let yoe : Nat := (doe - doe / 1460 + doe / 36524 - doe / 146096) / 365
  let y : Int := era * 400 + yoe
  let doy : Nat := doe - (365 * yoe + yoe / 4 - yoe / 100)
  let mp : Nat := (5 * doy + 2) / 153
  let d : Nat := doy - (153 * mp + 2) / 5 + 1
  let m : Nat := if mp < 10 then mp + 3 else mp - 9
  (if m ≤ 2 then y + 1 else y, m, d)

/-- English month names used by moment's `MMMM` format token. -/
def monthName : Nat → String
  | 1 => "January"
  | 2 => "February"
  | 3 => "March"
  | 4 => "April"
  | 5 => "May"
  | 6 => "June"
  | 7 => "July"
  | 8 => "August"
  | 9 => "September"
  | 10 => "October"
  | 11 => "November"
  | 12 => "December"
  | _ => ""

/-- Ordinal suffix of a day of the month, as produced by moment's `Do`
format token (1st, 2nd, 3rd, 4th, …, 11th, 12th, 13th, 21st, …). -/
def ordinalSuffix (d : Nat) : String :=
  if 11 ≤ d % 100 ∧ d % 100 ≤ 13 then "th"
  else if d % 10 = 1 then "st"
  else if d % 10 = 2 then "nd"
  else if d % 10 = 3 then "rd"
  else "th"

/-- moment's `format('MMMM Do')` applied to a day count. -/
def formatMMMMDo (z : Int) : String :=
  let c := civilFromDays z
  monthName c.2.1 ++ " " ++ toString c.2.2 ++ ordinalSuffix c.2.2

/-- moment's `day()`: numeric day of week, 0 = Sunday … 6 = Saturday
(1970-01-01 was a Thursday, hence the offset 4). -/
def momentDay (z : Int) : Nat :=
  ((z + 4) % 7).toNat

/-- Embedding of `getWeekStartMoment(date, startOfWeek)` from
`src/utils/utils.ts`: `date.clone().subtract((date.day() - startOfWeek + 7) % 7, 'days')`. -/
def getWeekStartMoment (z : Int) (startOfWeek : Nat) : Int :=
  z - ((momentDay z : Int) - startOfWeek + 7) % 7

/-- Embedding of `GetWeekDateFromMoment(date, startOfWeek)` from
`src/utils/utils.ts`: subtract `(date.day() - startOfWeek + 7) % 7` days
and format the result as `'MMMM Do'`. -/
def GetWeekDateFromMoment (z : Int) (startOfWeek : Nat) : String :=
  formatMMMMDo (z - ((momentDay z : Int) - startOfWeek + 7) % 7)

/-- Day count of 2026-01-25 (a Sunday). -/
def day20260125 : Int := 20478

/-- Day count of 2026-01-31 (a Saturday). -/
def day20260131 : Int := 20484

/-- Day-of-week as described by the spec's fixed numeric convention
(0 = Sunday … 6 = Saturday), stated independently for comparison with
the code's `momentDay`. -/
def specDayOfWeek (z : Int) : Nat :=
  (((z % 7) + 4) % 7).toNat

/-- A moment.js locale environment as consulted by the source's week
handling: the locale's first day of week (`dow`, which shifts the
locale-aware `weekday()` accessor and the locale weekday names), and the
month-name and day-ordinal tables consulted by `format('MMMM Do')`. -/
structure MomentLocale where
  dow : Nat
  localeMonthName : Nat → String
  localeDayOrdinal : Nat → String

/-- moment's locale-aware `weekday()` accessor: the day of week shifted
so that the locale's first day of week is 0. The source never calls it. -/
def localeWeekday (loc : MomentLocale) (z : Int) : Nat :=
  (((momentDay z : Int) - loc.dow + 7) % 7).toNat

/-- moment's default English locale: week starts Sunday, the `MMMM`
month names and `Do` ordinals defined above. -/
def englishLocale : MomentLocale :=
  ⟨0, monthName, fun d => toString d ++ ordinalSuffix d⟩

/-- moment's French locale (`fr`): week starts Monday, French month
names, and `Do` ordinals that suffix only the 1st (`1er`). -/
def frenchLocale : MomentLocale :=
  ⟨1,
   fun m =>
     match m with
     | 1 => "janvier"
     | 2 => "février"
     | 3 => "mars"
     | 4 => "avril"
     | 5 => "mai"
     | 6 => "juin"
     | 7 => "juillet"
     | 8 => "août"
     | 9 => "septembre"
     | 10 => "octobre"
     | 11 => "novembre"
     | 12 => "décembre"
     | _ => "",
   fun d => toString d ++ (if d = 1 then "er" else "")⟩

/-- moment's `format('MMMM Do')` under a locale environment: the month
name and the day ordinal are rendered from the locale's tables. -/
def formatMMMMDoInLocale (loc : MomentLocale) (z : Int) : String :=
  let c := civilFromDays z
  loc.localeMonthName c.2.1 ++ " " ++ loc.localeDayOrdinal c.2.2

/-- `GetWeekDateFromMoment` as executed under a given moment.js locale
environment: the source (`src/utils/utils.ts`) computes the day of week
with `date.day()` — the fixed numeric 0=Sunday…6=Saturday accessor —
and never consults `weekday()` or locale weekday names, but its final
`format('MMMM Do')` renders with the locale's month-name and ordinal
tables. -/
def GetWeekDateFromMomentInLocale (loc : MomentLocale) (z : Int) (startOfWeek : Nat) : String :=
  formatMMMMDoInLocale loc (z - ((momentDay z : Int) - startOfWeek + 7) % 7)

/-- C2: for every date and every startOfWeek in 0..6, `GetWeekDateFromMoment`
equals the date obtained by subtracting `(dayOfWeek(d) - startOfWeek + 7) mod 7`
days from `d`, formatted as month name, day and ordinal suffix with no year;
in particular on 2026-01-25 (a Sunday) with startOfWeek = 1 it returns
"January 19th". -/
theorem GetWeekDateFromMoment_spec :
    (∀ (z : Int) (s : Nat), s < 7 →
      GetWeekDateFromMoment z s = formatMMMMDo (z - ((specDayOfWeek z : Int) - s + 7) % 7)) ∧
    civilFromDays day20260125 = (2026, 1, 25) ∧
    momentDay day20260125 = 0 ∧
    GetWeekDateFromMoment day20260125 1 = "January 19th" := by
  refine ⟨?_, by decide, by decide, by decide⟩
  intro z s _hs
  have h : specDayOfWeek z = momentDay z := by
    unfold specDayOfWeek momentDay
    omega
  rw [GetWeekDateFromMoment, h]

/-- Witness for C2: instantiates the universal part at 2026-01-25 with
startOfWeek = 1 and discharges the hypothesis. -/
theorem GetWeekDateFromMoment_spec_witness :
    GetWeekDateFromMoment day20260125 1 =
      formatMMMMDo (day20260125 - ((specDayOfWeek day20260125 : Int) - 1 + 7) % 7) :=
  GetWeekDateFromMoment_spec.1 day20260125 1 (by decide)

/-- C9 counterexample: the output string of `GetWeekDateFromMoment` is
not identical across locale environments — on 2026-01-25 with
startOfWeek 1, the English locale renders "January 19th" while the
French locale renders "janvier 19" through its own month-name and
ordinal tables, because `format('MMMM Do')` is locale-aware even though
the day-of-week arithmetic is not. -/
theorem GetWeekDateFromMoment_locale_counterexample :
    GetWeekDateFromMomentInLocale englishLocale day20260125 1 = "January 19th" ∧
    GetWeekDateFromMomentInLocale frenchLocale day20260125 1 = "janvier 19" ∧
    GetWeekDateFromMomentInLocale frenchLocale day20260125 1 ≠
      GetWeekDateFromMomentInLocale englishLocale day20260125 1 := by
  refine ⟨by decide, by decide, by decide⟩

/-- C9 (amended): the week-start computation uses the fixed numeric
day-of-week convention (0 = Sunday … 6 = Saturday) via `day()` and never
locale-dependent weekday names: under every locale environment the
selected week-start date is `getWeekStartMoment date startOfWeek` — a
function of the date and startOfWeek alone — and the locale affects only
the month-name/ordinal rendering of that date; under moment's default
English locale the output coincides with `GetWeekDateFromMoment` for
every input, so two runs under locales with equal formatting tables are
identical. The closed conjuncts pin the convention: 2026-01-25 (Sunday)
has day 0 and 2026-01-31 (Saturday) has day 6. -/
theorem GetWeekDateFromMoment_fixed_day_convention :
    (∀ (loc : MomentLocale) (z : Int) (s : Nat),
      GetWeekDateFromMomentInLocale loc z s =
        formatMMMMDoInLocale loc (getWeekStartMoment z s)) ∧
    (∀ (z : Int) (s : Nat),
      GetWeekDateFromMomentInLocale englishLocale z s = GetWeekDateFromMoment z s) ∧
    momentDay day20260125 = 0 ∧
    momentDay day20260131 = 6 := by
  refine ⟨fun loc z s => rfl, fun z s => ?_, by decide, by decide⟩
  unfold GetWeekDateFromMomentInLocale GetWeekDateFromMoment formatMMMMDoInLocale formatMMMMDo
    englishLocale
  simp only [String.append_assoc]

/-- C10: for every date and startOfWeek in 0..6, the week start
`w = getWeekStartMoment(d, s)` has day-of-week `s`, is not after `d`,
is at most 6 days before `d`, and `GetWeekDateFromMoment d s` is exactly
`w` formatted as `MMMM Do`; moreover all seven dates of the week starting
at `w` produce the same week label. -/
theorem getWeekStartMoment_spec (z : Int) (s : Nat) (hs : s < 7) :
    momentDay (getWeekStartMoment z s) = s ∧
    getWeekStartMoment z s ≤ z ∧
    z - getWeekStartMoment z s ≤ 6 ∧
    GetWeekDateFromMoment z s = formatMMMMDo (getWeekStartMoment z s) ∧
    ∀ k : Nat, k < 7 →
      GetWeekDateFromMoment (getWeekStartMoment z s + k) s = GetWeekDateFromMoment z s := by
  have hstart : ∀ k : Nat, k < 7 →
      getWeekStartMoment (getWeekStartMoment z s + k) s = getWeekStartMoment z s := by
    intro k hk
    unfold getWeekStartMoment momentDay
    omega
  refine ⟨?_, ?_, ?_, rfl, ?_⟩
  · unfold getWeekStartMoment momentDay
    omega
  · unfold getWeekStartMoment momentDay
    omega
  · unfold getWeekStartMoment momentDay
    omega
  · intro k hk
    have h1 : GetWeekDateFromMoment (getWeekStartMoment z s + k) s =
        formatMMMMDo (getWeekStartMoment (getWeekStartMoment z s + k) s) := rfl
    rw [h1, hstart k hk]
    rfl

/-- Witness for C10: the week-start facts at 2026-01-25 with startOfWeek = 1. -/
theorem getWeekStartMoment_spec_witness :
    momentDay (getWeekStartMoment day20260125 1) = 1 ∧
    getWeekStartMoment day20260125 1 ≤ day20260125 ∧
    day20260125 - getWeekStartMoment day20260125 1 ≤ 6 ∧
    GetWeekDateFromMoment day20260125 1 = formatMMMMDo (getWeekStartMoment day20260125 1) ∧
    ∀ k : Nat, k < 7 →
      GetWeekDateFromMoment (getWeekStartMoment day20260125 1 + k) 1 =
        GetWeekDateFromMoment day20260125 1 :=
  getWeekStartMoment_spec day20260125 1 (by decide)

/-!
Shopping-list ignore validation, embedded from `src/utils/utils.ts`.
The JavaScript `RegExp` constructor (a runtime builtin, not repository
code) is modelled as an explicit compilation oracle
`compile : String → Except String Unit` returning either success or the
error message that the constructor would throw.
-/

/-- Modelled from the spec: the `ShoppingListIgnoreBehaviour` enum from
`src/settings/settings.ts`, which is not under src/; its four values are
those used by `validateIgnoreBehaviour` and the tests. -/
inductive ShoppingListIgnoreBehaviour
  | Exact
  | Partiality
  | Wildcard
  | Regex
deriving DecidableEq, Repr

/-- Embedding of the `BehaviourValidationError` class from `src/utils/utils.ts`. -/
structure BehaviourValidationError where
  message : String
deriving DecidableEq, Repr

/-- Characters escaped by `wildcardToRegex`'s first `replace` call
(the regex character class is spelled in the source as a literal). -/
def regexSpecialChars : List Char :=
  ['-', '/', '\\', '^', '$', '+', '?', '.', '(', ')', '|', '[', ']', '\x7b', '\x7d']

/-- First pass of `wildcardToRegex`: prefix each special character with a backslash. -/
def escapeRegexChar (c : Char) : List Char :=
  if c ∈ regexSpecialChars then ['\\', c] else [c]

/-- Second pass of `wildcardToRegex`: turn each `*` into `.*`. -/
def starToDotStar (c : Char) : List Char :=
  if c = '*' then ['.', '*'] else [c]

/-- Embedding of `wildcardToRegex` from `src/utils/utils.ts`: escape the
regex special characters, convert `*` to `.*`, and anchor with `^...$`. -/
def wildcardToRegex (pattern : String) : String :=
  "^" ++ String.mk (((pattern.data.map escapeRegexChar).flatten.map starToDotStar).flatten) ++ "$"

/-- The pattern string handed to the `RegExp` constructor for one ignore
item: the wildcard translation for the Wildcard behaviour, the raw item
otherwise. -/
def ignorePatternOf (behaviour : ShoppingListIgnoreBehaviour) (item : String) : String :=
  if behaviour = ShoppingListIgnoreBehaviour.Wildcard then wildcardToRegex item else item

/-- The error message built in the `catch` branch of `validateIgnoreBehaviour`. -/
def ignoreErrorMessage (msg : String) : String :=
  "Shopping list's ignore items are invalid: " ++ msg ++ "."

/-- The `for` loop of `validateIgnoreBehaviour`: compile each item's
pattern, returning the first compilation failure as a typed error. -/
def validateIgnoreLoop (compile : String → Except String Unit)
    (behaviour : ShoppingListIgnoreBehaviour) :
    List String → Except BehaviourValidationError Bool
  | [] => Except.ok true
  | item :: rest =>
    match compile (ignorePatternOf behaviour item) with
    | Except.ok _ => validateIgnoreLoop compile behaviour rest
    | Except.error msg => Except.error ⟨ignoreErrorMessage msg⟩

/-- Embedding of `validateIgnoreBehaviour` from `src/utils/utils.ts`:
Exact and Partial behaviours are vacuously valid; otherwise every item's
pattern is compiled and the first failure is surfaced as a
`BehaviourValidationError` (never an uncaught throw — the function is
total by construction). -/
def validateIgnoreBehaviour (compile : String → Except String Unit)
    (ignoreList : List String) (behaviour : ShoppingListIgnoreBehaviour) :
    Except BehaviourValidationError Bool :=
  if behaviour = ShoppingListIgnoreBehaviour.Exact ∨
      behaviour = ShoppingListIgnoreBehaviour.Partiality then
    Except.ok true
  else
    validateIgnoreLoop compile behaviour ignoreList

example : wildcardToRegex "*" = "^.*$" := by decide
example : wildcardToRegex "salt*" = "^salt.*$" := by decide

/-- The loop returns Ok when every pattern compiles. -/
theorem validateIgnoreLoop_ok (compile : String → Except String Unit)
    (behaviour : ShoppingListIgnoreBehaviour) (l : List String)
    (h : ∀ item ∈ l, compile (ignorePatternOf behaviour item) = Except.ok ()) :
    validateIgnoreLoop compile behaviour l = Except.ok true := by
  induction l with
  | nil => rfl
  | cons item rest ih =>
    have hitem := h item (List.mem_cons_self item rest)
    unfold validateIgnoreLoop
    rw [hitem]
    exact ih fun x hx => h x (List.mem_cons_of_mem item hx)

/-- A loop error comes from some item whose pattern failed to compile,
and carries the derived message. -/
theorem validateIgnoreLoop_error (compile : String → Except String Unit)
    (behaviour : ShoppingListIgnoreBehaviour) (l : List String)
    (e : BehaviourValidationError)
    (h : validateIgnoreLoop compile behaviour l = Except.error e) :
    ∃ item ∈ l, ∃ msg, compile (ignorePatternOf behaviour item) = Except.error msg ∧
      e.message = ignoreErrorMessage msg := by
  induction l with
  | nil => simp [validateIgnoreLoop] at h
  | cons item rest ih =>
    unfold validateIgnoreLoop at h
    cases hc : compile (ignorePatternOf behaviour item) with
    | ok u =>
      rw [hc] at h
      obtain ⟨x, hx, msg, hmsg, hm⟩ := ih h
      exact ⟨x, List.mem_cons_of_mem item hx, msg, hmsg, hm⟩
    | error msg =>
      rw [hc] at h
      refine ⟨item, List.mem_cons_self item rest, msg, hc, ?_⟩
      cases h
      rfl

/-- If some item's pattern fails to compile, the loop returns an error. -/
theorem validateIgnoreLoop_error_of_failure (compile : String → Except String Unit)
    (behaviour : ShoppingListIgnoreBehaviour) (l : List String) (item : String) (msg : String)
    (hmem : item ∈ l) (hfail : compile (ignorePatternOf behaviour item) = Except.error msg) :
    ∃ e, validateIgnoreLoop compile behaviour l = Except.error e := by
  induction l with
  | nil => cases hmem
  | cons x rest ih =>
    unfold validateIgnoreLoop
    cases hc : compile (ignorePatternOf behaviour x) with
    | error m => exact ⟨⟨ignoreErrorMessage m⟩, rfl⟩
    | ok u =>
      rcases List.mem_cons.mp hmem with rfl | hrest
      · rw [hc] at hfail
        cases hfail
      · exact ih hrest

/-- C8: `validateIgnoreBehaviour` never throws (it is a total function into
a typed result): it returns Ok(true) unconditionally for the Exact and
Partial behaviours, returns Ok(true) whenever every pattern compiles,
any error it returns is a `BehaviourValidationError` whose message is
derived from the underlying pattern-compilation error's message, and —
for the behaviours that compile patterns — whenever some pattern fails
to compile it does return such an Err, never Ok. -/
theorem validateIgnoreBehaviour_spec (compile : String → Except String Unit)
    (ignoreList : List String) (behaviour : ShoppingListIgnoreBehaviour) :
    (behaviour = ShoppingListIgnoreBehaviour.Exact ∨
        behaviour = ShoppingListIgnoreBehaviour.Partiality →
      validateIgnoreBehaviour compile ignoreList behaviour = Except.ok true) ∧
    ((∀ item ∈ ignoreList, compile (ignorePatternOf behaviour item) = Except.ok ()) →
      validateIgnoreBehaviour compile ignoreList behaviour = Except.ok true) ∧
    (∀ e, validateIgnoreBehaviour compile ignoreList behaviour = Except.error e →
      ∃ item ∈ ignoreList, ∃ msg,
        compile (ignorePatternOf behaviour item) = Except.error msg ∧
        e.message = ignoreErrorMessage msg) ∧
    (behaviour ≠ ShoppingListIgnoreBehaviour.Exact →
      behaviour ≠ ShoppingListIgnoreBehaviour.Partiality →
      ∀ item ∈ ignoreList, ∀ msg,
        compile (ignorePatternOf behaviour item) = Except.error msg →
        ∃ e, validateIgnoreBehaviour compile ignoreList behaviour = Except.error e ∧
          ∃ witem ∈ ignoreList, ∃ wmsg,
            compile (ignorePatternOf behaviour witem) = Except.error wmsg ∧
            e.message = ignoreErrorMessage wmsg) := by
  have herr : ∀ e, validateIgnoreBehaviour compile ignoreList behaviour = Except.error e →
      ∃ item ∈ ignoreList, ∃ msg,
        compile (ignorePatternOf behaviour item) = Except.error msg ∧
        e.message = ignoreErrorMessage msg := by
    intro e he
    unfold validateIgnoreBehaviour at he
    by_cases hb : behaviour = ShoppingListIgnoreBehaviour.Exact ∨
        behaviour = ShoppingListIgnoreBehaviour.Partiality
    · rw [if_pos hb] at he
      cases he
    · rw [if_neg hb] at he
      exact validateIgnoreLoop_error compile behaviour ignoreList e he
  refine ⟨fun h => ?_, fun h => ?_, herr, fun hb1 hb2 item hmem msg hfail => ?_⟩
  · unfold validateIgnoreBehaviour
    rw [if_pos h]
  · unfold validateIgnoreBehaviour
    by_cases hb : behaviour = ShoppingListIgnoreBehaviour.Exact ∨
        behaviour = ShoppingListIgnoreBehaviour.Partiality
    · rw [if_pos hb]
    · rw [if_neg hb]
      exact validateIgnoreLoop_ok compile behaviour ignoreList h
  · have hb : ¬(behaviour = ShoppingListIgnoreBehaviour.Exact ∨
        behaviour = ShoppingListIgnoreBehaviour.Partiality) := by
      intro hor
      rcases hor with h1 | h2
      · exact hb1 h1
      · exact hb2 h2
    obtain ⟨e, he⟩ := validateIgnoreLoop_error_of_failure compile behaviour ignoreList
      item msg hmem hfail
    have hve : validateIgnoreBehaviour compile ignoreList behaviour = Except.error e := by
      unfold validateIgnoreBehaviour
      rw [if_neg hb]
      exact he
    exact ⟨e, hve, herr e hve⟩

/-- A concrete compilation oracle for the C8 witness: rejects the pattern
"salt[" the way the JavaScript RegExp constructor does. -/
def sampleRegexCompile (s : String) : Except String Unit :=
  if s = "salt[" then
    Except.error "Invalid regular expression: /salt[/: Unterminated character class"
  else Except.ok ()

/-- Witness for C8: applies the theorem at a concrete compiler, list and
behaviour, discharging the all-patterns-compile hypothesis, and at a
list with an invalid pattern, discharging the failing-pattern
hypotheses. -/
theorem validateIgnoreBehaviour_spec_witness :
    (validateIgnoreBehaviour sampleRegexCompile ["salt.*", "pepper"]
      ShoppingListIgnoreBehaviour.Regex = Except.ok true) ∧
    (∃ e, validateIgnoreBehaviour sampleRegexCompile ["salt["]
        ShoppingListIgnoreBehaviour.Regex = Except.error e ∧
      ∃ witem ∈ ["salt["], ∃ wmsg,
        sampleRegexCompile (ignorePatternOf ShoppingListIgnoreBehaviour.Regex witem) =
          Except.error wmsg ∧
        e.message = ignoreErrorMessage wmsg) :=
  ⟨(validateIgnoreBehaviour_spec sampleRegexCompile ["salt.*", "pepper"]
      ShoppingListIgnoreBehaviour.Regex).2.1 (by
        intro item hi
        rcases List.mem_cons.mp hi with h | hi2
        · subst h; rfl
        · rcases List.mem_cons.mp hi2 with h | h
          · subst h; rfl
          · cases h),
   (validateIgnoreBehaviour_spec sampleRegexCompile ["salt["]
      ShoppingListIgnoreBehaviour.Regex).2.2.2 (by decide) (by decide)
      "salt[" (List.mem_cons_self _ _)
      "Invalid regular expression: /salt[/: Unterminated character class" (by rfl)⟩

/-!
The meal-plan document engine (`src/meal_plan/plan.ts`) is not part of the
provided sources; only its test suite is. The definitions below are
therefore modelled from the specification (§3, §4.2–§4.6), with the test
suite's concrete inputs and outputs used as sanity checks. Raw text is
represented line-oriented: a character string is a `List Char` and a
document is a list of lines.
-/

/-- Character strings of the engine model. -/
abbrev Str := List Char

/-- Whitespace characters recognised by trimming. -/
def isWsChar (c : Char) : Bool :=
  c = ' ' ∨ c = '\t' ∨ c = '\n' ∨ c = '\r'

/-- Trim leading and trailing whitespace from a string. -/
def strTrim (s : Str) : Str :=
  ((s.dropWhile isWsChar).reverse.dropWhile isWsChar).reverse

/-- Lower-case a string (for case-insensitive comparison). -/
def strToLower (s : Str) : Str :=
  s.map Char.toLower

/-- Replace the first list element satisfying the predicate. -/
def modifyFirstBy (p : α → Bool) (f : α → α) : List α → List α
  | [] => []
  | x :: xs => if p x then f x :: xs else x :: modifyFirstBy p f xs

/-- Remove the first list element satisfying the predicate. -/
def removeFirstBy (p : α → Bool) : List α → List α
  | [] => []
  | x :: xs => if p x then xs else x :: removeFirstBy p xs

/-- Split a string at every occurrence of a separator character. -/
def splitCharAux (sep : Char) (acc : Str) : Str → List Str
  | [] => [acc.reverse]
  | c :: rest =>
    if c = sep then acc.reverse :: splitCharAux sep [] rest
    else splitCharAux sep (c :: acc) rest

/-- Split a string on a separator character. -/
def splitChar (sep : Char) (s : Str) : List Str :=
  splitCharAux sep [] s

/-- The table layout's line-break marker joining multiple entries in one cell. -/
def brMarker : Str := ['<', 'b', 'r', '>']

/-- Split a table cell at every occurrence of the `<br>` line-break marker. -/
def splitBrAux (acc : Str) : Str → List Str
  | '<' :: 'b' :: 'r' :: '>' :: rest => acc.reverse :: splitBrAux [] rest
  | c :: rest => splitBrAux (c :: acc) rest
  | [] => [acc.reverse]

/-- The sub-entries of a table cell, split on the line-break marker. -/
def splitBr (cell : Str) : List Str :=
  splitBrAux [] cell

/-- A rendered recipe link `[[name]]`. -/
def linkOf (name : Str) : Str :=
  '[' :: '[' :: (name ++ [']', ']'])

/-- Whether a string is a link-wrapped name `[[...]]`. -/
def isLink (s : Str) : Bool :=
  decide (4 ≤ s.length) && (s.take 2 == ['[', '[']) && (s.reverse.take 2 == [']', ']'])

/-- The name inside a link-wrapped string. -/
def linkInner (s : Str) : Str :=
  ((s.drop 2).dropLast).dropLast

/-- Modelled from the spec: the name by which a cell sub-entry is matched
during removal — the inner name for a `[[...]]` recipe link, the literal
text otherwise (checkbox markers do not occur inside table cells). -/
def entryNameOf (e : Str) : Str :=
  if isLink e then linkInner e else e

/-- Modelled from the spec (§4.4 removal within a cell, the table path of
`RemoveRecipeFromMealPlan` in `src/meal_plan/plan.ts`, not under src/):
split the cell on the `<br>` marker, drop the first sub-entry whose name
equals `name`, and re-join the rest with single `<br>` markers. -/
def removeRecipeFromCell (cell : Str) (name : Str) : Str :=
  List.intercalate brMarker (removeFirstBy (fun e => entryNameOf e == name) (splitBr cell))

example : splitBr "[[Recipe 1]]<br>[[Recipe 2]]<br>[[Recipe 3]]".data =
    ["[[Recipe 1]]".data, "[[Recipe 2]]".data, "[[Recipe 3]]".data] := by decide
example : removeRecipeFromCell "[[Recipe 1]]<br>[[Recipe 2]]<br>[[Recipe 3]]".data
    "Recipe 2".data = "[[Recipe 1]]<br>[[Recipe 3]]".data := by decide

/-- Joining two sub-entries uses exactly one line-break marker. -/
theorem intercalate_br_pair (a b : Str) :
    List.intercalate brMarker [a, b] = a ++ brMarker ++ b := by
  simp [List.intercalate, List.intersperse]

/-- C3: in a table cell holding exactly three `<br>`-joined entries,
removing the named entry — whether it is first, middle, or last — leaves
precisely the other two joined by a single line-break marker: no leading,
trailing, or doubled marker remains. -/
theorem removeRecipeFromCell_three (cell a b c name : Str)
    (hsplit : splitBr cell = [a, b, c])
    (_ha : a ≠ []) (_hb : b ≠ []) (_hc : c ≠ []) :
    (entryNameOf a = name → removeRecipeFromCell cell name = b ++ brMarker ++ c) ∧
    (entryNameOf a ≠ name → entryNameOf b = name →
      removeRecipeFromCell cell name = a ++ brMarker ++ c) ∧
    (entryNameOf a ≠ name → entryNameOf b ≠ name → entryNameOf c = name →
      removeRecipeFromCell cell name = a ++ brMarker ++ b) := by
  unfold removeRecipeFromCell
  rw [hsplit]
  refine ⟨fun h1 => ?_, fun h1 h2 => ?_, fun h1 h2 h3 => ?_⟩
  · simp only [removeFirstBy, beq_iff_eq, h1, if_pos rfl]
    exact intercalate_br_pair b c
  · simp only [removeFirstBy, beq_iff_eq, if_neg h1, h2, if_pos rfl]
    exact intercalate_br_pair a c
  · simp only [removeFirstBy, beq_iff_eq, if_neg h1, if_neg h2, h3, if_pos rfl]
    exact intercalate_br_pair a b

/-- Witness for C3: a concrete three-entry cell, removing the first, a
middle, and the last entry. -/
theorem removeRecipeFromCell_three_witness :
    (removeRecipeFromCell "[[Recipe 1]]<br>[[Recipe 2]]<br>[[Recipe 3]]".data "Recipe 1".data =
      "[[Recipe 2]]".data ++ brMarker ++ "[[Recipe 3]]".data) ∧
    (removeRecipeFromCell "[[Recipe 1]]<br>[[Recipe 2]]<br>[[Recipe 3]]".data "Recipe 2".data =
      "[[Recipe 1]]".data ++ brMarker ++ "[[Recipe 3]]".data) ∧
    (removeRecipeFromCell "[[Recipe 1]]<br>[[Recipe 2]]<br>[[Recipe 3]]".data "Recipe 3".data =
      "[[Recipe 1]]".data ++ brMarker ++ "[[Recipe 2]]".data) :=
  ⟨(removeRecipeFromCell_three "[[Recipe 1]]<br>[[Recipe 2]]<br>[[Recipe 3]]".data
      "[[Recipe 1]]".data "[[Recipe 2]]".data "[[Recipe 3]]".data "Recipe 1".data
      (by decide) (by decide) (by decide) (by decide)).1 (by decide),
   (removeRecipeFromCell_three "[[Recipe 1]]<br>[[Recipe 2]]<br>[[Recipe 3]]".data
      "[[Recipe 1]]".data "[[Recipe 2]]".data "[[Recipe 3]]".data "Recipe 2".data
      (by decide) (by decide) (by decide) (by decide)).2.1 (by decide) (by decide),
   (removeRecipeFromCell_three "[[Recipe 1]]<br>[[Recipe 2]]<br>[[Recipe 3]]".data
      "[[Recipe 1]]".data "[[Recipe 2]]".data "[[Recipe 3]]".data "Recipe 3".data
      (by decide) (by decide) (by decide) (by decide)).2.2 (by decide) (by decide) (by decide)⟩

/-!
Table-layout codec, modelled from the spec (§4.4): tolerant row
tokenizer, header/separator location, placeholder-row classification,
and `addRecipeToTable`.
-/

/-- Whether a line is a pipe-delimited row. -/
def isPipeRow (l : Str) : Bool :=
  l.any (· == '|')

/-- The cells of a pipe-delimited row: split on `|` and drop the empty
fragments before the leading and after the trailing pipe. -/
def rowCells (l : Str) : List Str :=
  ((splitChar '|' l).drop 1).dropLast

/-- The first cell of a row, trimmed. -/
def firstCellTrim (l : Str) : Str :=
  strTrim ((rowCells l).headD [])

/-- A separator row: every cell, after trimming, consists solely of one
or more dashes. -/
def isSeparatorRow (l : Str) : Bool :=
  isPipeRow l && (rowCells l).all fun c =>
    let t := strTrim c
    !t.isEmpty && t.all (· == '-')

/-- An empty placeholder row: all cells blank; preserved and never
treated as data. -/
def isPlaceholderRow (l : Str) : Bool :=
  isPipeRow l && (rowCells l).all fun c => (strTrim c).isEmpty

/-- A data row carrying the given week label: a pipe row that is not a
placeholder and whose first cell, trimmed, equals the label. -/
def dataRowMatches (weekLabel : Str) (l : Str) : Bool :=
  isPipeRow l && !isPlaceholderRow l && (firstCellTrim l == weekLabel)

/-- Index of the table's header row: the first pipe-delimited row. -/
def findHeaderIdx (lines : List Str) : Option Nat :=
  lines.findIdx? isPipeRow

/-- The data region of a table document: the lines after the header row
and the adjacent separator row. -/
def tableBody (lines : List Str) : List Str :=
  match findHeaderIdx lines with
  | some h => lines.drop (h + 2)
  | none => []

/-- Column index of a day in the header row, resolved by trimmed cell
text rather than a fixed position. -/
def columnIndexOf (header : Str) (day : Str) : Option Nat :=
  (rowCells header).findIdx? fun c => strTrim c == day

/-- Map over a list with the element index. -/
def mapWithIndex (f : Nat → α → β) : List α → List β :=
  go 0
where
  go (i : Nat) : List α → List β
    | [] => []
    | x :: xs => f i x :: go (i + 1) xs

/-- Re-serialize a row from its cells, one space of padding around each cell. -/
def serializeRow (cells : List Str) : Str :=
  ['|'] ++ List.intercalate ['|'] (cells.map fun c => [' '] ++ c ++ [' ']) ++ ['|']

/-- Append a recipe link to a cell: a blank cell becomes a single-entry
cell, a non-blank cell gains a `<br>`-joined entry. -/
def appendToCell (cell : Str) (recipeName : Str) : Str :=
  if cell.isEmpty then linkOf recipeName else cell ++ brMarker ++ linkOf recipeName

/-- Rewrite one data row, appending the recipe link to the day's column. -/
def editRowCell (col : Nat) (recipeName : Str) (l : Str) : Str :=
  serializeRow (mapWithIndex
    (fun i c => if i = col then appendToCell (strTrim c) recipeName else strTrim c)
    (rowCells l))

/-- Modelled from the spec (§4.4 `addRecipeToTable` in
`src/meal_plan/plan.ts`, not under src/): locate the header row and the
day's column, then append `[[recipeName]]` to that column of the first
data row (placeholder rows skipped) whose first cell, trimmed, equals
`weekLabel`; if the header, the column, or such a row is absent, return
the content unchanged. -/
def addRecipeToTable (lines : List Str) (weekLabel day recipeName : Str) : List Str :=
  match findHeaderIdx lines with
  | none => lines
  | some h =>
    match columnIndexOf (lines.getD h []) day with
    | none => lines
    | some col =>
      lines.take (h + 2) ++
        modifyFirstBy (dataRowMatches weekLabel) (editRowCell col recipeName)
          (lines.drop (h + 2))

/-- The table document of the spec's §8 week-not-found example. -/
def tableNoFebruary : List Str :=
  ["| Week Start | Sunday | Monday | Tuesday | Wednesday | Thursday | Friday | Saturday |".data,
   "|---|---|---|---|---|---|---|---|".data,
   "| January 8th | | | | | | | |".data]

example : addRecipeToTable
    ["| Week Start | Sunday | Monday | Tuesday | Wednesday | Thursday | Friday | Saturday |".data,
     "|---|---|---|---|---|---|---|---|".data,
     "| January 8th |  | [[Pasta Carbonara]] |  |  |  |  |  |".data]
    "January 8th".data "Monday".data "Chicken Tikka Masala".data =
    ["| Week Start | Sunday | Monday | Tuesday | Wednesday | Thursday | Friday | Saturday |".data,
     "|---|---|---|---|---|---|---|---|".data,
     "| January 8th |  | [[Pasta Carbonara]]<br>[[Chicken Tikka Masala]] |  |  |  |  |  |".data] := by
  decide

example : addRecipeToTable
    ["| Week Start | Sunday | Monday | Tuesday | Wednesday | Thursday | Friday | Saturday |".data,
     "|---|---|---|---|---|---|---|---|".data,
     "| January 8th | | | | | | | |".data]
    "January 8th".data "Monday".data "Pasta Carbonara".data =
    ["| Week Start | Sunday | Monday | Tuesday | Wednesday | Thursday | Friday | Saturday |".data,
     "|---|---|---|---|---|---|---|---|".data,
     "| January 8th |  | [[Pasta Carbonara]] |  |  |  |  |  |".data] := by
  decide

/-- `modifyFirstBy` is the identity when no element satisfies the predicate. -/
theorem modifyFirstBy_eq_self (p : α → Bool) (f : α → α) (l : List α)
    (h : ∀ x ∈ l, p x = false) : modifyFirstBy p f l = l := by
  induction l with
  | nil => rfl
  | cons x xs ih =>
    unfold modifyFirstBy
    rw [h x (List.mem_cons_self x xs), if_neg (by simp)]
    rw [ih fun y hy => h y (List.mem_cons_of_mem x hy)]

/-- C4: if no data row of the table (placeholder rows are not data rows)
has its first cell, trimmed, equal to `weekLabel`, then `addRecipeToTable`
returns the content unchanged — a deliberate no-op, not a fault. -/
theorem addRecipeToTable_absent_noop (lines : List Str) (weekLabel day recipeName : Str)
    (h : ∀ l ∈ tableBody lines,
      isPipeRow l = true → isPlaceholderRow l = false → firstCellTrim l ≠ weekLabel) :
    addRecipeToTable lines weekLabel day recipeName = lines := by
  have hmatch : ∀ l ∈ tableBody lines, dataRowMatches weekLabel l = false := by
    intro l hl
    unfold dataRowMatches
    by_cases hp : isPipeRow l = true
    · by_cases hph : isPlaceholderRow l = false
      · have := h l hl hp hph
        simp [hp, hph, this]
      · simp [eq_true_of_ne_false hph]
    · simp [eq_false_of_ne_true hp]
  unfold addRecipeToTable
  split
  next => rfl
  next hIdx hh =>
    split
    next => rfl
    next col hc =>
      have hbody : tableBody lines = lines.drop (hIdx + 2) := by
        unfold tableBody
        rw [hh]
      rw [modifyFirstBy_eq_self _ _ _ (by rw [← hbody]; exact hmatch)]
      exact List.take_append_drop (hIdx + 2) lines

/-- Witness for C4: the table holding only "January 8th" is returned
unchanged when asked to add under the absent label "February 1st". -/
theorem addRecipeToTable_absent_noop_witness :
    addRecipeToTable tableNoFebruary "February 1st".data "Monday".data "Test Recipe".data =
      tableNoFebruary :=
  addRecipeToTable_absent_noop tableNoFebruary "February 1st".data "Monday".data
    "Test Recipe".data (by decide)

/-!
Format detector, modelled from the spec (§4.2): classify a document as
Table (a pipe row whose first cell, trimmed and case-insensitive, is
"Week Start"), List (a line starting with "# Week of "), or neither.
-/

/-- The two meal-plan document layouts. -/
inductive MealPlanFormat
  | list
  | table
deriving DecidableEq, Repr

/-- A line that is entirely whitespace. -/
def isBlankLine (l : Str) : Bool :=
  l.all isWsChar

/-- The Table pattern: a pipe-delimited row whose first cell, trimmed
and compared case-insensitively, is "Week Start". -/
def isWeekStartHeaderRow (l : Str) : Bool :=
  isPipeRow l && (strToLower (firstCellTrim l) == "week start".data)

/-- The List pattern: a line beginning with the "# Week of " header
(multiline search — any line of the document). -/
def isWeekOfHeaderLine (l : Str) : Bool :=
  "# Week of ".data.isPrefixOf l

/-- Modelled from the spec (§4.2 `detectMealPlanFormat` in
`src/meal_plan/plan.ts`, not under src/): empty or whitespace-only
content is unrecognized; otherwise the Table pattern is sought on any
line, then the List pattern; neither means unrecognized. -/
def detectMealPlanFormat (lines : List Str) : Option MealPlanFormat :=
  if lines.all isBlankLine then none
  else if lines.any isWeekStartHeaderRow then some MealPlanFormat.table
  else if lines.any isWeekOfHeaderLine then some MealPlanFormat.list
  else none

example : detectMealPlanFormat
    ["# Week of January 8th".data, "## Sunday".data, "## Monday".data] =
    some MealPlanFormat.list := by decide
example : detectMealPlanFormat tableNoFebruary = some MealPlanFormat.table := by decide
example : detectMealPlanFormat [] = none := by decide
example : detectMealPlanFormat ["   ".data] = none := by decide
example : detectMealPlanFormat
    ["# Some other heading".data, "Just random content.".data] = none := by decide
example : detectMealPlanFormat ["".data, "| Week Start | Sunday | Monday |".data,
    "|---|---|---|".data, "| January 8th |  |  |".data] = some MealPlanFormat.table := by decide

/-- A line matching the Table pattern contains a pipe, so it is not blank. -/
theorem weekStartRow_not_blank (l : Str) (h : isWeekStartHeaderRow l = true) :
    isBlankLine l = false := by
  unfold isWeekStartHeaderRow isPipeRow at h
  have hp : l.any (· == '|') = true := by
    cases hc : l.any (· == '|') with
    | true => rfl
    | false => rw [hc] at h; simp at h
  obtain ⟨c, hcl, hbeq⟩ := List.any_eq_true.mp hp
  have hmem : '|' ∈ l := by
    have : c = '|' := by simpa using hbeq
    rwa [this] at hcl
  unfold isBlankLine
  cases hb : l.all isWsChar with
  | false => rfl
  | true =>
    have := (List.all_eq_true.mp hb) '|' hmem
    simp [isWsChar] at this

/-- A line matching the List pattern starts with '#', so it is not blank. -/
theorem weekOfLine_not_blank (l : Str) (h : isWeekOfHeaderLine l = true) :
    isBlankLine l = false := by
  unfold isWeekOfHeaderLine at h
  have hpre : "# Week of ".data <+: l := by
    exact (List.isPrefixOf_iff_prefix).mp h
  obtain ⟨t, ht⟩ := hpre
  unfold isBlankLine
  cases hb : l.all isWsChar with
  | false => rfl
  | true =>
    have hmem : '#' ∈ l := by
      rw [← ht]
      exact List.mem_append_left _ (by decide)
    have := (List.all_eq_true.mp hb) '#' hmem
    simp [isWsChar] at this

/-- C7: `detectMealPlanFormat` returns None exactly on empty or
whitespace-only content and on content matching neither the Table
pattern nor the List pattern; content with a Table-pattern line is
classified Table, and content with a List-pattern line but no
Table-pattern line is classified List. -/
theorem detectMealPlanFormat_spec (lines : List Str) :
    (detectMealPlanFormat lines = none ↔
      (lines.all isBlankLine = true ∨
        (lines.any isWeekStartHeaderRow = false ∧ lines.any isWeekOfHeaderLine = false))) ∧
    (lines.any isWeekStartHeaderRow = true →
      detectMealPlanFormat lines = some MealPlanFormat.table) ∧
    (lines.any isWeekStartHeaderRow = false → lines.any isWeekOfHeaderLine = true →
      detectMealPlanFormat lines = some MealPlanFormat.list) := by
  have hblank_table : lines.any isWeekStartHeaderRow = true → lines.all isBlankLine = false := by
    intro h
    obtain ⟨l, hl, hrow⟩ := List.any_eq_true.mp h
    cases hb : lines.all isBlankLine with
    | false => rfl
    | true =>
      have := (List.all_eq_true.mp hb) l hl
      rw [weekStartRow_not_blank l hrow] at this
      cases this
  have hblank_list : lines.any isWeekOfHeaderLine = true → lines.all isBlankLine = false := by
    intro h
    obtain ⟨l, hl, hrow⟩ := List.any_eq_true.mp h
    cases hb : lines.all isBlankLine with
    | false => rfl
    | true =>
      have := (List.all_eq_true.mp hb) l hl
      rw [weekOfLine_not_blank l hrow] at this
      cases this
  refine ⟨?_, fun ht => ?_, fun ht hl => ?_⟩
  · unfold detectMealPlanFormat
    by_cases hb : lines.all isBlankLine = true
    · simp [hb]
    · cases ht : lines.any isWeekStartHeaderRow with
      | true => simp [hb, ht]
      | false =>
        cases hl : lines.any isWeekOfHeaderLine with
        | true => simp [hb, ht, hl]
        | false => simp [hb, ht, hl]
  · unfold detectMealPlanFormat
    rw [hblank_table ht, ht]
    simp
  · unfold detectMealPlanFormat
    rw [hblank_list hl, ht, hl]
    simp

/-- Witness for C7: a document whose only structure is a list header is
classified List (no Table-pattern line present). -/
theorem detectMealPlanFormat_spec_witness :
    detectMealPlanFormat ["# Week of January 8th".data, "## Sunday".data] =
      some MealPlanFormat.list :=
  (detectMealPlanFormat_spec ["# Week of January 8th".data, "## Sunday".data]).2.2
    (by decide) (by decide)

/-!
Mutation operations, modelled from the spec (§4.5). The codecs split the
document into labeled week units — List layout: one section per
`# Week of <label>` header; Table layout: one data row per week — and a
mutation edits at most the unit whose label is the week label resolved
from the target date. A document is modelled as the list of those units,
each carrying its label and its raw text, so "unchanged" below means
byte-for-byte equality of a unit's text.
-/

/-- Modelled from the spec: `DAYS_OF_WEEK` from `src/constants.ts` (not
under src/), the seven day names in the fixed 0 = Sunday … 6 = Saturday
order. -/
def DAYS_OF_WEEK : List String :=
  ["Sunday", "Monday", "Tuesday", "Wednesday", "Thursday", "Friday", "Saturday"]

/-- The day name inferred from a date's day-of-week. -/
def dayNameOfDate (z : Int) : String :=
  DAYS_OF_WEEK.getD (momentDay z) ""

/-- A week unit of a document: its week label and its raw text (a List
layout section or a Table layout data row). -/
structure WeekUnit where
  label : String
  text : String
deriving DecidableEq, Repr

/-- Whether a line is an entry for the given recipe name: a bullet with
the recipe link, optionally carrying a checkbox marker. -/
def isEntryLineFor (name : String) (l : String) : Bool :=
  l.trim == "- [[" ++ name ++ "]]" ||
    l.trim == "- [ ] [[" ++ name ++ "]]" ||
    l.trim == "- [x] [[" ++ name ++ "]]"

/-- Remove, among the lines before the next day subheading, the first
entry whose name matches. -/
def removeEntryInDayBlock (name : String) : List String → List String
  | [] => []
  | l :: rest =>
    if l.startsWith "## " then l :: rest
    else if isEntryLineFor name l then rest
    else l :: removeEntryInDayBlock name rest

/-- Remove the first matching entry inside the given day's subsection of
a week's text. -/
def removeEntryLines (day name : String) : List String → List String
  | [] => []
  | l :: rest =>
    if l.trim == "## " ++ day then l :: removeEntryInDayBlock name rest
    else l :: removeEntryLines day name rest

/-- Edit one week unit's text: drop the first entry of the given recipe
in the given day's subsection. -/
def removeRecipeFromWeekText (t : String) (day name : String) : String :=
  String.intercalate "\n" (removeEntryLines day name (t.splitOn "\n"))

/-- Modelled from the spec (§4.5 `RemoveRecipeFromMealPlan` in
`src/meal_plan/plan.ts`, not under src/): resolve the week label for the
date with the configured start of week, locate only the unit with that
label, and remove the first entry named `recipeName` for the day
inferred from the date's day-of-week. -/
def RemoveRecipeFromMealPlan (doc : List WeekUnit) (startOfWeek : Nat)
    (recipeName : String) (date : Int) : List WeekUnit :=
  let weekLabel := GetWeekDateFromMoment date startOfWeek
  let day := dayNameOfDate date
  modifyFirstBy (fun w => w.label == weekLabel)
    (fun w => ⟨w.label, removeRecipeFromWeekText w.text day recipeName⟩) doc

/-- `modifyFirstBy` preserves length. -/
theorem modifyFirstBy_length (p : α → Bool) (f : α → α) (l : List α) :
    (modifyFirstBy p f l).length = l.length := by
  induction l with
  | nil => rfl
  | cons x xs ih =>
    unfold modifyFirstBy
    by_cases h : p x
    · simp [h]
    · simp [h, ih]

/-- `modifyFirstBy` leaves every element not satisfying the predicate in
place, unchanged. -/
theorem modifyFirstBy_getElem_of_not (p : α → Bool) (f : α → α) (l : List α)
    (i : Nat) (x : α) (hx : l[i]? = some x) (hp : p x = false) :
    (modifyFirstBy p f l)[i]? = some x := by
  induction l generalizing i with
  | nil => simp at hx
  | cons y ys ih =>
    unfold modifyFirstBy
    by_cases h : p y
    · cases i with
      | zero =>
        simp at hx
        rw [hx] at h
        rw [hp] at h
        cases h
      | succ j =>
        simp only [if_pos h]
        simpa using hx
    · cases i with
      | zero =>
        simp only [if_neg h]
        simpa using hx
      | succ j =>
        simp only [if_neg h]
        simp only [List.getElem?_cons_succ] at hx ⊢
        exact ih j hx

/-- Day number of 2024-01-08 (a Monday). -/
def day20240108 : Int := 19730

example : GetWeekDateFromMoment day20240108 0 = "January 7th" := by decide
example : dayNameOfDate day20240108 = "Monday" := by decide

/-- C5: `RemoveRecipeFromMealPlan` alters only the week unit whose label
is resolved from the date: the document keeps its length, and every unit
with a different label — even one containing an entry of the same recipe
name — is returned byte-for-byte unchanged at its position. -/
theorem RemoveRecipeFromMealPlan_isolated (doc : List WeekUnit) (startOfWeek : Nat)
    (recipeName : String) (date : Int) :
    (RemoveRecipeFromMealPlan doc startOfWeek recipeName date).length = doc.length ∧
    ∀ (i : Nat) (w : WeekUnit), doc[i]? = some w →
      w.label ≠ GetWeekDateFromMoment date startOfWeek →
      (RemoveRecipeFromMealPlan doc startOfWeek recipeName date)[i]? = some w := by
  constructor
  · exact modifyFirstBy_length _ _ doc
  · intro i w hw hlabel
    exact modifyFirstBy_getElem_of_not _ _ doc i w hw (by simpa using hlabel)

/-- Witness for C5: two weeks both holding `[[Same Recipe]]`; removal
targeted at the week of 2024-01-08 (label "January 7th") leaves the
"January 14th" unit byte-for-byte unchanged. -/
theorem RemoveRecipeFromMealPlan_isolated_witness :
    (RemoveRecipeFromMealPlan
        [⟨"January 14th", "## Monday\n- [[Same Recipe]]"⟩,
         ⟨"January 7th", "## Monday\n- [[Same Recipe]]"⟩] 0 "Same Recipe" day20240108).length =
      2 ∧
    (RemoveRecipeFromMealPlan
        [⟨"January 14th", "## Monday\n- [[Same Recipe]]"⟩,
         ⟨"January 7th", "## Monday\n- [[Same Recipe]]"⟩] 0 "Same Recipe" day20240108)[0]? =
      some ⟨"January 14th", "## Monday\n- [[Same Recipe]]"⟩ :=
  ⟨(RemoveRecipeFromMealPlan_isolated
      [⟨"January 14th", "## Monday\n- [[Same Recipe]]"⟩,
       ⟨"January 7th", "## Monday\n- [[Same Recipe]]"⟩] 0 "Same Recipe" day20240108).1,
   (RemoveRecipeFromMealPlan_isolated
      [⟨"January 14th", "## Monday\n- [[Same Recipe]]"⟩,
       ⟨"January 7th", "## Monday\n- [[Same Recipe]]"⟩] 0 "Same Recipe" day20240108).2 0
      ⟨"January 14th", "## Monday\n- [[Same Recipe]]"⟩ (by decide) (by decide)⟩

/-!
`AddRecipeToMealPlanByDate`, modelled from the spec (§4.5, §3 global
invariant). A week unit additionally carries its resolved week-start
date (labels are year-less; per §3 a document's weeks lie within a
bounded span, so each label resolves to the absolute week-start date the
insertion used). Both layouts render the unit sequence in document
order: List as `# Week of` headers top-to-bottom, Table as data rows
top-to-bottom with placeholder rows excluded.
-/

/-- A dated week unit: the resolved week-start date, the rendered week
label, and the unit's text. -/
structure DatedWeek where
  weekDate : Int
  label : String
  text : String
deriving DecidableEq, Repr

/-- The day headers rotated to the configured start of week (the rotation
used by the tests: position `i` holds `DAYS_OF_WEEK[(i + startOfWeek) % 7]`). -/
def dayHeadersFor (startOfWeek : Nat) : List String :=
  (List.range 7).map fun i => DAYS_OF_WEEK.getD ((i + startOfWeek) % 7) ""

/-- A fresh week section with all seven day subsections and no entries
(List rendering; the Table layout's fresh row is the all-blank row of
`createTableWeekSection`). -/
def createWeekSection (label : String) (startOfWeek : Nat) : String :=
  String.intercalate "\n"
    (("# Week of " ++ label) :: (dayHeadersFor startOfWeek).map fun d => "## " ++ d)

/-- Add an entry line for the recipe under the given day subheading of a
week's text. -/
def addEntryLines (day recipeName : String) : List String → List String
  | [] => []
  | l :: rest =>
    if l.trim == "## " ++ day then l :: ("- [[" ++ recipeName ++ "]]") :: rest
    else l :: addEntryLines day recipeName rest

/-- Add a recipe entry to a week's text for the given day. -/
def addRecipeToWeekText (t : String) (day recipeName : String) : String :=
  String.intercalate "\n" (addEntryLines day recipeName (t.splitOn "\n"))

/-- Insert a new week before the first existing week with a later
resolved date (the chronologically correct position: all weeks remain in
non-decreasing date order). -/
def insertWeekChronologically (nw : DatedWeek) : List DatedWeek → List DatedWeek
  | [] => [nw]
  | w :: rest =>
    if nw.weekDate ≤ w.weekDate then nw :: w :: rest
    else w :: insertWeekChronologically nw rest

/-- Modelled from the spec (§4.5 `AddRecipeToMealPlanByDate` in
`src/meal_plan/plan.ts`, not under src/): resolve the week label for the
date; if that week exists, add the entry to it; otherwise create the
week (List: new section; Table: new row) at the chronologically correct
position and add the entry there. -/
def AddRecipeToMealPlanByDate (doc : List DatedWeek) (startOfWeek : Nat)
    (recipeName : String) (date : Int) (day : String) : List DatedWeek :=
  let w := getWeekStartMoment date startOfWeek
  let weekLabel := GetWeekDateFromMoment date startOfWeek
  if doc.any (fun u => u.weekDate == w) then
    modifyFirstBy (fun u => u.weekDate == w)
      (fun u => ⟨u.weekDate, u.label, addRecipeToWeekText u.text day recipeName⟩) doc
  else
    insertWeekChronologically
      ⟨w, weekLabel, addRecipeToWeekText (createWeekSection weekLabel startOfWeek) day recipeName⟩
      doc

/-- One `AddRecipeToMealPlanByDate` call: recipe name, target date, day name. -/
structure AddCall where
  recipeName : String
  date : Int
  day : String

/-- Apply a sequence of `AddRecipeToMealPlanByDate` calls in order. -/
def applyAddCalls (startOfWeek : Nat) (doc : List DatedWeek) : List AddCall → List DatedWeek
  | [] => doc
  | c :: rest =>
    applyAddCalls startOfWeek (AddRecipeToMealPlanByDate doc startOfWeek c.recipeName c.date c.day) rest

/-- The resolved week-start dates of a document's weeks, top to bottom. -/
def weekDates (doc : List DatedWeek) : List Int :=
  doc.map fun u => u.weekDate

/-- The chronological invariant of §3: week units appear in
non-decreasing resolved-date order, oldest first. -/
def Chronological (doc : List DatedWeek) : Prop :=
  List.Pairwise (fun a b => a ≤ b) (weekDates doc)

instance : DecidablePred Chronological := fun doc =>
  inferInstanceAs (Decidable (List.Pairwise _ _))

/-- Membership in the result of a chronological insert. -/
theorem mem_insertWeekChronologically (nw : DatedWeek) (l : List DatedWeek) (u : DatedWeek)
    (h : u ∈ insertWeekChronologically nw l) : u = nw ∨ u ∈ l := by
  induction l with
  | nil =>
    simp [insertWeekChronologically] at h
    exact Or.inl h
  | cons w rest ih =>
    unfold insertWeekChronologically at h
    by_cases hle : nw.weekDate ≤ w.weekDate
    · rw [if_pos hle] at h
      rcases List.mem_cons.mp h with h1 | h2
      · exact Or.inl h1
      · exact Or.inr h2
    · rw [if_neg hle] at h
      rcases List.mem_cons.mp h with h1 | h2
      · exact Or.inr (h1 ▸ List.mem_cons_self w rest)
      · rcases ih h2 with h3 | h4
        · exact Or.inl h3
        · exact Or.inr (List.mem_cons_of_mem w h4)

/-- Chronological insert preserves the chronological invariant. -/
theorem insertWeekChronologically_chronological (nw : DatedWeek) (l : List DatedWeek)
    (h : Chronological l) : Chronological (insertWeekChronologically nw l) := by
  induction l with
  | nil =>
    simp [insertWeekChronologically, Chronological, weekDates]
  | cons w rest ih =>
    unfold Chronological weekDates at h
    simp only [List.map_cons, List.pairwise_cons] at h
    obtain ⟨hw, hrest⟩ := h
    unfold insertWeekChronologically
    by_cases hle : nw.weekDate ≤ w.weekDate
    · rw [if_pos hle]
      unfold Chronological weekDates
      simp only [List.map_cons, List.pairwise_cons]
      refine ⟨?_, ?_, hrest⟩
      · intro d hd
        simp only [List.mem_cons] at hd
        rcases hd with rfl | hd
        · exact hle
        · have := hw d (by simpa using hd)
          omega
      · intro d hd
        exact hw d (by simpa using hd)
    · rw [if_neg hle]
      unfold Chronological weekDates
      simp only [List.map_cons, List.pairwise_cons]
      refine ⟨?_, ih hrest⟩
      · intro d hd
        simp only [weekDates, List.mem_map] at hd
        obtain ⟨u, hu, rfl⟩ := hd
        rcases mem_insertWeekChronologically nw rest u hu with rfl | hmem
        · omega
        · exact hw u.weekDate (List.mem_map_of_mem _ hmem)

/-- Editing a week in place does not change the date sequence at all. -/
theorem weekDates_modifyFirstBy (p : DatedWeek → Bool) (g : DatedWeek → String)
    (l : List DatedWeek) :
    weekDates (modifyFirstBy p (fun u => ⟨u.weekDate, u.label, g u⟩) l) = weekDates l := by
  induction l with
  | nil => rfl
  | cons w rest ih =>
    unfold modifyFirstBy
    by_cases h : p w
    · simp [h, weekDates]
    · simp only [h, Bool.false_eq_true, if_neg, weekDates, List.map_cons]
      simpa [weekDates] using ih

/-- A single `AddRecipeToMealPlanByDate` call preserves the
chronological invariant. -/
theorem AddRecipeToMealPlanByDate_chronological (doc : List DatedWeek) (startOfWeek : Nat)
    (recipeName : String) (date : Int) (day : String) (h : Chronological doc) :
    Chronological (AddRecipeToMealPlanByDate doc startOfWeek recipeName date day) := by
  unfold AddRecipeToMealPlanByDate
  by_cases hex : doc.any (fun u => u.weekDate == getWeekStartMoment date startOfWeek)
  · rw [if_pos hex]
    unfold Chronological
    rw [weekDates_modifyFirstBy]
    exact h
  · rw [if_neg hex]
    exact insertWeekChronologically_chronological _ doc h

/-- C1: starting from any meal-plan document satisfying §3's global
chronological invariant (in particular the empty document), any sequence
of `AddRecipeToMealPlanByDate` calls with arbitrary dates — past, future,
or between existing weeks — yields a document whose weeks are again in
non-decreasing resolved-date order, oldest first; rendered in order, the
List layout's `# Week of` headers and the Table layout's data rows are
therefore chronological top-to-bottom. -/
theorem applyAddCalls_chronological (startOfWeek : Nat) (doc : List DatedWeek)
    (calls : List AddCall) (h : Chronological doc) :
    Chronological (applyAddCalls startOfWeek doc calls) := by
  induction calls generalizing doc with
  | nil => exact h
  | cons c rest ih =>
    exact ih _ (AddRecipeToMealPlanByDate_chronological doc startOfWeek c.recipeName c.date
      c.day h)

/-- Witness for C1: from the empty document, calls dated 2024-01-08,
then ten weeks later, then a week in between, inserted out of call
order, leave the weeks chronological. -/
theorem applyAddCalls_chronological_witness :
    Chronological (applyAddCalls 0 []
      [⟨"Recipe A", day20240108, "Monday"⟩,
       ⟨"Recipe B", day20240108 + 70, "Tuesday"⟩,
       ⟨"Recipe C", day20240108 + 35, "Wednesday"⟩]) :=
  applyAddCalls_chronological 0 []
    [⟨"Recipe A", day20240108, "Monday"⟩,
     ⟨"Recipe B", day20240108 + 70, "Tuesday"⟩,
     ⟨"Recipe C", day20240108 + 35, "Wednesday"⟩]
    (by simp [Chronological, weekDates])

/-!
Format converter, modelled from the spec (§4.6): both converters parse
the source layout fully into the shared Entry Model and serialize every
week into the target layout with the same day order. List-layout entries
are recipe links (with an optional checkbox marker — a concept the Table
layout cannot represent, so it is dropped on conversion, as documented)
or plain text; Table-layout cells hold the rendered entry strings of a
day, in order.
-/

/-- A List-layout day entry of the Entry Model. -/
inductive PlanEntry
  | recipe (checkbox : Option Bool) (name : Str)
  | plain (text : Str)
deriving DecidableEq, Repr

/-- A parsed List-layout week: label and one entry list per day, in the
configured day order. -/
structure ListWeek where
  label : Str
  days : List (List PlanEntry)
deriving DecidableEq, Repr

/-- A parsed Table-layout data row: label and one cell per day, each
cell the list of its entries' rendered strings. -/
structure TableRow where
  label : Str
  cells : List (List Str)
deriving DecidableEq, Repr

/-- Render an entry into a table cell string: recipe links keep their
`[[name]]` form (the checkbox marker is not representable in the Table
layout), plain text passes through verbatim. -/
def renderEntry : PlanEntry → Str
  | PlanEntry.recipe _ name => linkOf name
  | PlanEntry.plain text => text

/-- Parse a table cell string into an entry: a link-wrapped string is a
recipe link, anything else is plain text. -/
def parseCellEntry (s : Str) : PlanEntry :=
  if isLink s then PlanEntry.recipe none (linkInner s) else PlanEntry.plain s

/-- Modelled from the spec (§4.6 `convertListToTable` in
`src/meal_plan/plan.ts`, not under src/): every week's entries are
rendered into cells in the same day order. -/
def convertListToTable (doc : List ListWeek) : List TableRow :=
  doc.map fun w => ⟨w.label, w.days.map fun d => d.map renderEntry⟩

/-- Modelled from the spec (§4.6 `convertTableToList` in
`src/meal_plan/plan.ts`, not under src/): every row's cell strings are
parsed into entries in the same day order. -/
def convertTableToList (doc : List TableRow) : List ListWeek :=
  doc.map fun r => ⟨r.label, r.cells.map fun c => c.map parseCellEntry⟩

/-- The rendered entry texts of a List-layout document: per week, the
label and each day's entries rendered to strings. -/
def listWeekTexts (doc : List ListWeek) : List (Str × List (List Str)) :=
  doc.map fun w => (w.label, w.days.map fun d => d.map renderEntry)

/-- All entry names of a week-texts view, flattened in document order. -/
def allEntryTexts (v : List (Str × List (List Str))) : List Str :=
  (v.map fun p => p.2.flatten).flatten

/-- The week-texts view of a Table-layout document. -/
def tableWeekTexts (doc : List TableRow) : List (Str × List (List Str)) :=
  doc.map fun r => (r.label, r.cells)


/-- A list whose reversal starts with x then y ends in [y, x], and
double dropLast removes exactly that tail. -/
theorem eq_dropLast_dropLast_append (l : List Char) (x y : Char) (u : List Char)
    (h : l.reverse = x :: y :: u) :
    l = u.reverse ++ [y, x] ∧ l.dropLast.dropLast = u.reverse := by
  have hl : l = u.reverse ++ [y, x] := by
    have := congrArg List.reverse h
    rw [List.reverse_reverse] at this
    rw [this]
    simp
  constructor
  · exact hl
  · rw [hl]
    rw [show u.reverse ++ [y, x] = (u.reverse ++ [y]) ++ [x] by simp]
    rw [List.dropLast_concat, List.dropLast_concat]

/-- Rendering after parsing reproduces a cell string exactly. -/
theorem renderEntry_parseCellEntry (s : Str) : renderEntry (parseCellEntry s) = s := by
  unfold parseCellEntry
  by_cases h : isLink s = true
  · rw [if_pos h]
    unfold isLink at h
    simp only [Bool.and_eq_true, decide_eq_true_eq, beq_iff_eq] at h
    obtain ⟨⟨hlen, htake⟩, hrev⟩ := h
    match s, htake, hrev, hlen with
    | a :: b :: t, htake, hrev, hlen =>
      simp only [List.take, List.cons.injEq] at htake
      obtain ⟨rfl, rfl, -⟩ := htake
      have hlt : 2 ≤ t.reverse.length := by
        simp only [List.length_reverse]
        simp only [List.length_cons] at hlen
        omega
      obtain ⟨x, u1, hx⟩ := List.exists_cons_of_ne_nil
        (show t.reverse ≠ [] by intro hh; rw [hh] at hlt; simp at hlt)
      obtain ⟨y, u, hy⟩ := List.exists_cons_of_ne_nil
        (show u1 ≠ [] by
          intro hh
          rw [hh] at hx
          rw [hx] at hlt
          simp at hlt)
      rw [hy] at hx
      have hxy : x = ']' ∧ y = ']' := by
        rw [List.reverse_cons, List.reverse_cons, List.append_assoc, hx] at hrev
        simp at hrev
        exact ⟨hrev.1, hrev.2⟩
      obtain ⟨rfl, rfl⟩ := hxy
      obtain ⟨ht, hdrop⟩ := eq_dropLast_dropLast_append t ']' ']' u hx
      unfold renderEntry linkOf linkInner
      simp only [List.drop_succ_cons, List.drop_zero]
      rw [hdrop]
      rw [show (u.reverse ++ [']', ']'] : Str) = t by rw [ht]]
  · rw [if_neg h]
    rfl

/-- C6: the converters are information-preserving — `convertListToTable`
after `convertTableToList` is the identity on table documents, and
`convertTableToList` after `convertListToTable` preserves every week's
label and every day's rendered entry texts (only the checkbox marker,
which the Table layout cannot represent, is dropped); hence after either
round trip every original entry name occurs exactly as often as before,
in particular exactly once, for any number of weeks and entries per day. -/
theorem convert_roundtrip (T : List TableRow) (L : List ListWeek) :
    convertListToTable (convertTableToList T) = T ∧
    listWeekTexts (convertTableToList (convertListToTable L)) = listWeekTexts L ∧
    (∀ name : Str,
      (allEntryTexts (tableWeekTexts (convertListToTable (convertTableToList T)))).count name =
        (allEntryTexts (tableWeekTexts T)).count name) ∧
    (∀ name : Str,
      (allEntryTexts (listWeekTexts (convertTableToList (convertListToTable L)))).count name =
        (allEntryTexts (listWeekTexts L)).count name) := by
  have hcell : ∀ c : List Str, (c.map parseCellEntry).map renderEntry = c := by
    intro c
    rw [List.map_map]
    have : (renderEntry ∘ parseCellEntry) = id := by
      funext s
      exact renderEntry_parseCellEntry s
    rw [this, List.map_id]
  have hT : convertListToTable (convertTableToList T) = T := by
    unfold convertListToTable convertTableToList
    rw [List.map_map]
    conv_rhs => rw [show T = T.map id from (List.map_id T).symm]
    apply List.map_congr_left
    intro r _
    simp only [Function.comp_apply, id_eq, List.map_map]
    have : r.cells.map ((fun d => d.map renderEntry) ∘ fun c => c.map parseCellEntry) =
        r.cells := by
      conv_rhs => rw [show r.cells = r.cells.map id from (List.map_id r.cells).symm]
      apply List.map_congr_left
      intro c _
      simp only [Function.comp_apply, id_eq]
      exact hcell c
    rw [this]
  have hL : listWeekTexts (convertTableToList (convertListToTable L)) = listWeekTexts L := by
    unfold listWeekTexts convertListToTable convertTableToList
    rw [List.map_map, List.map_map]
    apply List.map_congr_left
    intro w _
    simp only [Function.comp_apply]
    congr 1
    rw [List.map_map, List.map_map]
    apply List.map_congr_left
    intro d _
    simp only [Function.comp_apply]
    exact hcell (d.map renderEntry)
  refine ⟨hT, hL, fun name => ?_, fun name => ?_⟩
  · rw [hT]
  · rw [hL]
